import Mathlib

/-!
Verification of the yadb storage engine core (header codec, page manager,
B-tree engine) against its specification.

Byte buffers are modelled as `List Nat` with every element below 256.
Machine integers (`u32`, `u64`) are modelled as `Nat`; validity predicates
carry the range bounds where serialization depends on them.
-/

namespace Yadb

/-! ## Little-endian integer codec

Models Rust's `u32::to_le_bytes` / `u64::to_le_bytes` (width 4 resp. 8) and
`uN::from_le_bytes`. -/

/-- Little-endian encoding of `x` into `w` bytes (low byte first), as produced
by `to_le_bytes` on a `w`-byte unsigned integer. -/
def toLeBytes : Nat → Nat → List Nat
  | 0, _ => []
  | w + 1, x => x % 256 :: toLeBytes w (x / 256)

/-- Little-endian decoding of a byte list, as performed by `from_le_bytes`. -/
def fromLeBytes : List Nat → Nat
  | [] => 0
  | b :: bs => b + 256 * fromLeBytes bs

/-! ## Database header codec (from `src/db_header.rs`)

The Rust struct layout: `magic : [u8; 4]`, `version : u32`,
`page_size : u64`, `page_count : u64`, `freelist_head_page : u64`,
`schema_root_page : u64`; `size_of::<DatabaseHeader>() = 40`. -/

/-- The value of `size_of::<DatabaseHeader>()`: 4 + 4 + 8 + 8 + 8 + 8 = 40
(no padding: total is a multiple of the 8-byte alignment). -/
def headerSize : Nat := 40

/-- The magic bytes `b"YADB"`. -/
def yadbMagic : List Nat := [0x59, 0x41, 0x44, 0x42]

/-- Database header structure, from `DatabaseHeader` in `src/db_header.rs`.
`magic` models the `[u8; 4]` array as a list of bytes. -/
structure DatabaseHeader where
  magic : List Nat
  version : Nat
  page_size : Nat
  page_count : Nat
  freelist_head_page : Nat
  schema_root_page : Nat
deriving DecidableEq

/-- Field ranges under which the Lean model coincides with the Rust struct:
the magic array has exactly 4 bytes, `version` fits in a `u32` and the
remaining fields fit in a `u64`. -/
def DatabaseHeader.Valid (h : DatabaseHeader) : Prop :=
  h.magic.length = 4 ∧ (∀ b ∈ h.magic, b < 256) ∧ h.version < 2 ^ 32 ∧
    h.page_size < 2 ^ 64 ∧ h.page_count < 2 ^ 64 ∧
    h.freelist_head_page < 2 ^ 64 ∧ h.schema_root_page < 2 ^ 64

instance (h : DatabaseHeader) : Decidable h.Valid := by
  unfold DatabaseHeader.Valid; infer_instance

/-- Function `DatabaseHeader::new(page_size)` from `src/db_header.rs`. -/
def DatabaseHeader.new (page_size : Nat) : DatabaseHeader :=
  { magic := yadbMagic
    version := 1
    page_size := page_size
    page_count := 1
    freelist_head_page := 0
    schema_root_page := 0 }

/-- Function `DatabaseHeader::serialize` from `src/db_header.rs`: the fields in
declared order, little-endian, then `buffer.resize(size_of::<DatabaseHeader>(), 0)`
(which zero-pads or truncates to exactly 40 bytes). -/
def DatabaseHeader.serialize (h : DatabaseHeader) : List Nat :=
  let buffer := h.magic ++ toLeBytes 4 h.version ++ toLeBytes 8 h.page_size ++
    toLeBytes 8 h.page_count ++ toLeBytes 8 h.freelist_head_page ++
    toLeBytes 8 h.schema_root_page
  (buffer ++ List.replicate (headerSize - buffer.length) 0).take headerSize

/-- Function `DatabaseHeader::deserialize` from `src/db_header.rs`: a single length
check, then field extraction at fixed offsets. There is no magic or version
validation in the source. -/
def DatabaseHeader.deserialize (bytes : List Nat) : Except String DatabaseHeader :=
  if bytes.length < headerSize then
    .error "Insufficient data to deserialize DatabaseHeader"
  else
    .ok
      { magic := bytes.take 4
        version := fromLeBytes ((bytes.drop 4).take 4)
        page_size := fromLeBytes ((bytes.drop 8).take 8)
        page_count := fromLeBytes ((bytes.drop 16).take 8)
        freelist_head_page := fromLeBytes ((bytes.drop 24).take 8)
        schema_root_page := fromLeBytes ((bytes.drop 32).take 8) }

/-! ## Disk page manager (from `src/page_manager.rs`)

The open file is modelled as its byte contents (`file`), together with the
bytes last flushed to durable storage (`durable`); `File::sync_data` copies
the former into the latter. `read_at`/`write_at` follow POSIX `pread`/`pwrite`
semantics: a read at or past end-of-file succeeds with fewer (possibly zero)
bytes, and a write past end-of-file zero-fills the gap. -/

/-- Bytes obtained by `read_at` on `file` at `offset` with a buffer of
`bufLen` bytes: at most `bufLen` bytes, fewer when the file ends first. -/
def readAt (file : List Nat) (offset bufLen : Nat) : List Nat :=
  (file.drop offset).take bufLen

/-- File contents after `write_at` of `buf` at `offset`: the prefix up to
`offset` (zero-filled when the file is shorter), then `buf`, then the
remaining old contents. -/
def writeAt (file : List Nat) (offset : Nat) (buf : List Nat) : List Nat :=
  (file.take offset ++ List.replicate (offset - file.length) 0) ++ buf ++
    file.drop (offset + buf.length)

/-- Error type `PageManagerError` from `src/page_manager.rs`. `BadPageFormat`
wraps the serializer's error message, `IoError` an I/O failure message. -/
inductive PageManagerError where
  | BadPageFormat (msg : String)
  | IoError (msg : String)
deriving DecidableEq

/-- Struct `DiskPageManager` from `src/page_manager.rs`: the open file (with its
durable image) plus the `page_size` and in-memory `header` fields of the
struct. `readable` records the access mode of the file descriptor the
manager holds: the existing-file branch of `open` uses `File::open`, whose
descriptor is read-only (readable), while the create branch uses
`File::create`, whose descriptor is write-only — a `pread` on it fails
deterministically with `EBADF`. -/
structure DiskPageManager where
  file : List Nat
  durable : List Nat
  page_size : Nat
  header : DatabaseHeader
  readable : Bool
deriving DecidableEq

/-- Function `DiskPageManager::open(path, page_size)`; the `path` argument is replaced
by the contents of the file at that path (`none` when no file exists).
New file: create it with `File::create` (a write-only descriptor) and write
`DatabaseHeader::new(page_size).serialize()`.
Existing file: `File::open` (a read-only descriptor), `read_exact` the first
`page_size` bytes (an I/O error when the file is shorter), `deserialize`
them, and take `page_size` from the decoded header. -/
def DiskPageManager.openFile (existing : Option (List Nat)) (page_size : Nat) :
    Except PageManagerError DiskPageManager :=
  match existing with
  | none =>
    let header := DatabaseHeader.new page_size
    .ok { file := header.serialize, durable := [], page_size := page_size,
          header := header, readable := false }
  | some bytes =>
    if bytes.length < page_size then
      .error (.IoError "failed to fill whole buffer")
    else
      match DatabaseHeader.deserialize (bytes.take page_size) with
      | .error e => .error (.BadPageFormat e)
      | .ok header =>
        .ok { file := bytes, durable := bytes, page_size := header.page_size,
              header := header, readable := true }

/-- Function `DiskPageManager::read_page(page_id, buf)`: `read_at` into `buf` at offset
`page_id * page_size`. On the create branch the descriptor is write-only, so
the `pread` itself fails with `EBADF` and the call returns an I/O error. On
a readable descriptor the returned byte count is discarded, so the call
succeeds even past end-of-file, returning `buf` with only the bytes actually
read replaced. -/
def DiskPageManager.read_page (m : DiskPageManager) (page_id : Nat)
    (buf : List Nat) : Except PageManagerError (List Nat) :=
  if m.readable then
    let r := readAt m.file (page_id * m.page_size) buf.length
    .ok (r ++ buf.drop r.length)
  else
    .error (.IoError "Bad file descriptor (os error 9)")

/-- Function `DiskPageManager::write_page(page_id, buf)`: `write_at` of `buf` at offset
`page_id * page_size`; no length validation and no restriction on
`page_id`. -/
def DiskPageManager.write_page (m : DiskPageManager) (page_id : Nat)
    (buf : List Nat) : Except PageManagerError DiskPageManager :=
  .ok { m with file := writeAt m.file (page_id * m.page_size) buf }

/-- Function `DiskPageManager::sync()`: `self.file.sync_data()` only — the current file
contents become durable; nothing is written to the file. -/
def DiskPageManager.sync (m : DiskPageManager) :
    Except PageManagerError DiskPageManager :=
  .ok { m with durable := m.file }

/-- Function `DiskPageManager::close()`: `self.sync()` and return (the handle itself is
released by `drop`). -/
def DiskPageManager.close (m : DiskPageManager) :
    Except PageManagerError DiskPageManager :=
  m.sync

/-- Modelled from the spec: `DiskPageManager::alloc_page` is an
`unimplemented!()` stub in `src/page_manager.rs`, so its body is taken from
§4.2 of the specification: when the freelist is non-empty (head sentinel 0
means empty), pop its head, reading that page's stored next-pointer (the
first 8 bytes of its body, little-endian) as the new `freelist_head_page`;
otherwise extend the file by one page, increment `page_count`, and return the
fresh identifier (the old `page_count`). -/
def DiskPageManager.alloc_page (m : DiskPageManager) :
    Except PageManagerError (Nat × DiskPageManager) :=
  if m.header.freelist_head_page ≠ 0 then
    let id := m.header.freelist_head_page
    let next := fromLeBytes (readAt m.file (id * m.page_size) 8)
    .ok (id, { m with header := { m.header with freelist_head_page := next } })
  else
    let id := m.header.page_count
    .ok (id, { m with
      header := { m.header with page_count := m.header.page_count + 1 },
      file := m.file ++ List.replicate ((id + 1) * m.page_size - m.file.length) 0 })

/-- Modelled from the spec: the freelist chain reachable from `head` by
following each free page's stored next-pointer, cut off by `fuel` (sentinel 0
terminates). Used by `free_page` to reject a double free. -/
def freelistChain (m : DiskPageManager) : Nat → Nat → List Nat
  | 0, _ => []
  | fuel + 1, head =>
    if head = 0 then []
    else head :: freelistChain m fuel (fromLeBytes (readAt m.file (head * m.page_size) 8))

/-- Modelled from the spec: `DiskPageManager::free_page` is an
`unimplemented!()` stub in `src/page_manager.rs`, so its body is taken from
§4.2 of the specification: freeing page 0, a page at or past `page_count`, or
an already-free page is a caller error (reported through the error type the
source provides); otherwise the page's body is overwritten with a freelist
node pointing at the current `freelist_head_page`, which is then set to the
freed identifier. -/
def DiskPageManager.free_page (m : DiskPageManager) (page_id : Nat) :
    Except PageManagerError DiskPageManager :=
  if page_id = 0 ∨ m.header.page_count ≤ page_id ∨
      page_id ∈ freelistChain m m.header.page_count m.header.freelist_head_page then
    .error (.IoError "InvalidArgument: cannot free this page")
  else
    .ok { m with
      file := writeAt m.file (page_id * m.page_size)
        (toLeBytes 8 m.header.freelist_head_page),
      header := { m.header with freelist_head_page := page_id } }

/-! ## Page-manager operation sequences

Used to state invariants that hold across every sequence of page-manager
calls after `open`. Each operation applies the corresponding method; a failed
call leaves the manager unchanged (the Rust methods return early with `Err`
without mutating on their error paths modelled here). -/

/-- One page-manager call. -/
inductive PMOp where
  | alloc
  | free (page_id : Nat)
  | write (page_id : Nat) (buf : List Nat)
  | read (page_id : Nat) (buf : List Nat)
  | sync
  | close

/-- Apply one call; the second component is the identifier returned when the
call was a successful `alloc_page`. -/
def applyPMOp (m : DiskPageManager) : PMOp → DiskPageManager × Option Nat
  | .alloc =>
    match m.alloc_page with
    | .ok (id, m') => (m', some id)
    | .error _ => (m, none)
  | .free page_id =>
    match m.free_page page_id with
    | .ok m' => (m', none)
    | .error _ => (m, none)
  | .write page_id buf =>
    match m.write_page page_id buf with
    | .ok m' => (m', none)
    | .error _ => (m, none)
  | .read page_id buf =>
    match m.read_page page_id buf with
    | _ => (m, none)
  | .sync =>
    match m.sync with
    | .ok m' => (m', none)
    | .error _ => (m, none)
  | .close =>
    match m.close with
    | .ok m' => (m', none)
    | .error _ => (m, none)

/-- Run a sequence of calls, collecting every identifier handed out by
`alloc_page` along the way. -/
def runPMOps (m : DiskPageManager) : List PMOp → DiskPageManager × List Nat
  | [] => (m, [])
  | op :: ops =>
    let s := applyPMOp m op
    let r := runPMOps s.1 ops
    (r.1, s.2.toList ++ r.2)

/-! ## B-tree engine

Modelled from the spec: every operation body in `src/btree.rs`
(`BTreeEngine::insert`, `search`, `delete`, `split_leaf`, `split_internal`,
`load_node`, `write_node`) is an `unimplemented!()` stub, so the engine is
modelled from §3 (Node model, separator semantics) and §4.3 (recursive
search/insert/delete with node splitting) of the specification. Nodes are
kept structurally (a child is a node, not a `PageId`): the page manager
round-trip through `load_node`/`write_node` is the plumbing the spec treats
as an external collaborator, and the decoded node content is what determines
every search/insert/delete result. The leaf sibling chain (`next_leaf`),
used only for ordered scans, is likewise omitted. Keys and values are byte
vectors in the source (`&[u8]`, `Vec<u8>`, compared lexicographically); the
model is generic in a linearly ordered key type and is instantiated at
byte vectors (`List Nat` with its lexicographic order) for the claims. -/

mutual
/-- Modelled from the spec: in-memory representation of a B-tree node (§3):
a leaf holds ordered key/value entries; an internal node holds separator
keys and children with `len(children) = len(keys) + 1`, stored here as a
first child plus (separator, child) pairs. -/
inductive Node (K V : Type) where
  | leaf (entries : List (K × V))
  | internal (c0 : Node K V) (rest : NodeRest K V)
inductive NodeRest (K V : Type) where
  | nil
  | cons (sep : K) (child : Node K V) (tail : NodeRest K V)
end

/-- Result of inserting into a subtree: either the updated node, or the two
halves of a split together with the promoted separator key (§4.3
`split_leaf` / `split_internal`). -/
inductive InsertResult (K V : Type) where
  | one (n : Node K V)
  | split (left : Node K V) (promoted_key : K) (right : Node K V)

/-- Number of (separator, child) pairs. -/
def NodeRest.length {K V : Type} : NodeRest K V → Nat
  | .nil => 0
  | .cons _ _ tail => 1 + tail.length

/-- First `n` (separator, child) pairs. -/
def NodeRest.take {K V : Type} : Nat → NodeRest K V → NodeRest K V
  | 0, _ => .nil
  | _, .nil => .nil
  | n + 1, .cons sep c tail => .cons sep c (tail.take n)

/-- All but the first `n` (separator, child) pairs. -/
def NodeRest.drop {K V : Type} : Nat → NodeRest K V → NodeRest K V
  | 0, rest => rest
  | _, .nil => .nil
  | n + 1, .cons _ _ tail => tail.drop n

variable {K V : Type}

/-- Exact-match lookup in a leaf's entry list. -/
def lookupEntry [LinearOrder K] (k : K) : List (K × V) → Option V
  | [] => none
  | (k', v) :: es => if k' = k then some v else lookupEntry k es

/-- Sorted-position insert with overwrite-on-equal-key (§4.3 insert: update
semantics, not insert-duplicate). -/
def insertEntry [LinearOrder K] (k : K) (v : V) : List (K × V) → List (K × V)
  | [] => [(k, v)]
  | (k', v') :: es =>
    if k < k' then (k, v) :: (k', v') :: es
    else if k' = k then (k, v) :: es
    else (k', v') :: insertEntry k v es

/-- Remove the entry with key `k`, when present (§4.3 delete). -/
def eraseEntry [LinearOrder K] (k : K) : List (K × V) → List (K × V)
  | [] => []
  | (k', v') :: es => if k' = k then es else (k', v') :: eraseEntry k es

mutual
/-- Point search (§4.3): at an internal node choose the child whose key range
contains `k` (all keys `< keys[i]` live left of `keys[i]`, keys `≥ keys[i-1]`
right of it, per the §3 separator semantics), descend; at a leaf do an
exact-match lookup. -/
def searchNode [LinearOrder K] (k : K) : Node K V → Option V
  | .leaf es => lookupEntry k es
  | .internal c0 rest => searchRest k c0 rest
termination_by n => sizeOf n
/-- Separator scan: `c` is the child to descend into when every remaining
separator exceeds `k`. -/
def searchRest [LinearOrder K] (k : K) (c : Node K V) : NodeRest K V → Option V
  | .nil => searchNode k c
  | .cons sep c' tail => if k < sep then searchNode k c else searchRest k c' tail
termination_by rest => sizeOf c + sizeOf rest
end

/-- Leaf split (§4.3 `split_leaf`): keep the lower half in place, move the
upper half to a new leaf; the promoted key is the first key of the upper
half. An entry list too short to split is returned unchanged (unreachable
from `insertNode`). -/
def splitLeafEntries [LinearOrder K] (es : List (K × V)) : InsertResult K V :=
  match es.drop (es.length / 2) with
  | [] => .one (.leaf es)
  | (sep, _) :: _ =>
    .split (.leaf (es.take (es.length / 2))) sep (.leaf (es.drop (es.length / 2)))

/-- Internal split (§4.3 `split_internal`): partition keys/children at the
midpoint; the middle separator moves up and is not duplicated in either
half. -/
def splitInternal [LinearOrder K] (c0 : Node K V) (rest : NodeRest K V) : InsertResult K V :=
  match rest.drop (rest.length / 2) with
  | .nil => .one (.internal c0 rest)
  | .cons sep c tail =>
    .split (.internal c0 (rest.take (rest.length / 2))) sep (.internal c tail)

mutual
/-- Recursive insert (§4.3): descend as in search to the target leaf, insert
or overwrite there, split any node that overflows (a leaf may hold at most
`order - 1` entries, an internal node at most `order` children) and propagate
the promoted separator upward. -/
def insertNode [LinearOrder K] (order : Nat) (k : K) (v : V) : Node K V → InsertResult K V
  | .leaf es =>
    let es' := insertEntry k v es
    if es'.length < order then .one (.leaf es') else splitLeafEntries es'
  | .internal c0 rest =>
    let r := insChild order k v c0 rest
    if r.2.length + 1 ≤ order then .one (.internal r.1 r.2) else splitInternal r.1 r.2
termination_by n => sizeOf n
/-- Insert into the child selected by the separator scan, splicing a split
child's promoted key and new right half into the pair list in place. -/
def insChild [LinearOrder K] (order : Nat) (k : K) (v : V) (c0 : Node K V) :
    NodeRest K V → Node K V × NodeRest K V
  | .nil =>
    match insertNode order k v c0 with
    | .one n => (n, .nil)
    | .split l s r => (l, .cons s r .nil)
  | .cons sep c tail =>
    if k < sep then
      match insertNode order k v c0 with
      | .one n => (n, .cons sep c tail)
      | .split l s r => (l, .cons s r (.cons sep c tail))
    else
      let p := insChild order k v c tail
      (c0, .cons sep p.1 p.2)
termination_by rest => sizeOf c0 + sizeOf rest
end

mutual
/-- Recursive delete (§4.3): descend to the owning leaf and remove the entry
when present; no rebalancing or merging (deleting an absent key is a
no-op). -/
def deleteNode [LinearOrder K] (k : K) : Node K V → Node K V
  | .leaf es => .leaf (eraseEntry k es)
  | .internal c0 rest =>
    let p := delChild k c0 rest
    .internal p.1 p.2
termination_by n => sizeOf n
/-- Delete inside the child selected by the separator scan. -/
def delChild [LinearOrder K] (k : K) (c0 : Node K V) :
    NodeRest K V → Node K V × NodeRest K V
  | .nil => (deleteNode k c0, .nil)
  | .cons sep c tail =>
    if k < sep then (deleteNode k c0, .cons sep c tail)
    else
      let p := delChild k c tail
      (c0, .cons sep p.1 p.2)
termination_by rest => sizeOf c0 + sizeOf rest
end

/-- Modelled from the spec: `BTreeEngine` state — the tree order (max
children per internal node) and the root node (held structurally in place of
the stub's `root_page`). -/
structure BTreeEngine (K V : Type) where
  order : Nat
  root : Node K V

/-- Modelled from the spec: `BTreeEngine::new` for a fresh tree — an empty
root leaf. -/
def BTreeEngine.new (order : Nat) : BTreeEngine K V :=
  { order := order, root := .leaf [] }

/-- Function `BTreeEngine::insert`: insert at the root; when the root splits, a new
internal root with one separator and two children replaces it (§4.3). -/
def BTreeEngine.insert [LinearOrder K] (e : BTreeEngine K V) (k : K) (v : V) :
    BTreeEngine K V :=
  { e with
    root :=
      match insertNode e.order k v e.root with
      | .one n => n
      | .split l s r => .internal l (.cons s r .nil) }

/-- Function `BTreeEngine::search`. -/
def BTreeEngine.search [LinearOrder K] (e : BTreeEngine K V) (k : K) : Option V :=
  searchNode k e.root

/-- Function `BTreeEngine::delete`. -/
def BTreeEngine.delete [LinearOrder K] (e : BTreeEngine K V) (k : K) : BTreeEngine K V :=
  { e with root := deleteNode k e.root }

/-! ## Leaf entry list lemmas -/

/-- Leaf entries carry unique keys in strictly ascending order (§3). -/
def EntriesSorted [LinearOrder K] (es : List (K × V)) : Prop :=
  List.Pairwise (fun a b : K × V => a.1 < b.1) es

/-! ## B-tree well-formedness invariant

Bounds are carried as optional inclusive lower / upper limits on the keys a
subtree may contain; separators delimit the children's ranges (§3 separator
semantics). -/

/-- Optional inclusive lower bound. -/
def lbOk [LinearOrder K] : Option K → K → Prop
  | none, _ => True
  | some l, k => l ≤ k

/-- Optional inclusive upper bound. -/
def ubOk [LinearOrder K] : K → Option K → Prop
  | _, none => True
  | k, some u => k ≤ u

/-- Key within the subtree's bounds. -/
def inb [LinearOrder K] (lo hi : Option K) (k : K) : Prop := lbOk lo k ∧ ubOk k hi

mutual
/-- Node well-formedness between optional bounds: leaf entries are strictly
sorted and in range; an internal node's separators and children are
well-formed per `WFRest`. -/
inductive WF [LinearOrder K] : Option K → Option K → Node K V → Prop where
  | leaf {lo hi : Option K} {es : List (K × V)} (hs : EntriesSorted es)
      (hb : ∀ e ∈ es, inb lo hi e.1) : WF lo hi (.leaf es)
  | internal {lo hi : Option K} {c0 : Node K V} {rest : NodeRest K V}
      (h : WFRest lo hi c0 rest) : WF lo hi (.internal c0 rest)
/-- The pair list is well-formed when each separator lies in range, each
child is well-formed between its adjacent separators, and the running child
`c0` is bounded above by the next separator. -/
inductive WFRest [LinearOrder K] : Option K → Option K → Node K V → NodeRest K V → Prop where
  | nil {lo hi : Option K} {c0 : Node K V} (h : WF lo hi c0) : WFRest lo hi c0 .nil
  | cons {lo hi : Option K} {sep : K} {c0 c : Node K V} {tail : NodeRest K V}
      (hsep : inb lo hi sep) (hc0 : WF lo (some sep) c0)
      (ht : WFRest (some sep) hi c tail) : WFRest lo hi c0 (.cons sep c tail)
end

/-- Well-formedness of an insert result: both split halves are well-formed
on either side of the promoted key, which itself lies in range. -/
def WFIR [LinearOrder K] (lo hi : Option K) : InsertResult K V → Prop
  | .one n => WF lo hi n
  | .split l s r => inb lo hi s ∧ WF lo (some s) l ∧ WF (some s) hi r

/-- Search through an insert result, routing around the promoted key the way
the parent will after splicing the split in. -/
def searchIR [LinearOrder K] (k : K) : InsertResult K V → Option V
  | .one n => searchNode k n
  | .split l s r => if k < s then searchNode k l else searchNode k r

/-- One engine call. -/
inductive BTOp (K V : Type) where
  | insert (k : K) (v : V)
  | delete (k : K)

/-- Apply one engine call. -/
def applyBTOp [LinearOrder K] (e : BTreeEngine K V) : BTOp K V → BTreeEngine K V
  | .insert k v => e.insert k v
  | .delete k => e.delete k

/-- Run a sequence of engine calls left to right. -/
def runBTOps [LinearOrder K] (e : BTreeEngine K V) : List (BTOp K V) → BTreeEngine K V
  | [] => e
  | op :: ops => runBTOps (applyBTOp e op) ops

/-- Inserts applied left to right. -/
def runInserts [LinearOrder K] (e : BTreeEngine K V) : List (K × V) → BTreeEngine K V
  | [] => e
  | (k, v) :: ps => runInserts (e.insert k v) ps

/-- The value most recently inserted for `k` in the call sequence (later
calls win), or `none` when `k` never appears. -/
def lastInserted [LinearOrder K] (k : K) : List (K × V) → Option V
  | [] => none
  | (k', v) :: ps =>
    match lastInserted k ps with
    | some w => some w
    | none => if k' = k then some v else none

/-! ## Theorems -/

theorem toLeBytes_length (w x : Nat) : (toLeBytes w x).length = w := by
  induction w generalizing x with
  | zero => rfl
  | succ w ih => simp [toLeBytes, ih]

theorem fromLeBytes_toLeBytes (w x : Nat) (hx : x < 256 ^ w) :
    fromLeBytes (toLeBytes w x) = x := by
  induction w generalizing x with
  | zero => simpa [toLeBytes, fromLeBytes, eq_comm] using Nat.lt_one_iff.mp (by simpa using hx)
  | succ w ih =>
    have hdiv : x / 256 < 256 ^ w := by
      rw [Nat.div_lt_iff_lt_mul (by norm_num)]
      calc x < 256 ^ (w + 1) := hx
        _ = 256 ^ w * 256 := by ring
    simp [toLeBytes, fromLeBytes, ih (x / 256) hdiv]
    omega

theorem toLeBytes_lt (w x : Nat) : ∀ b ∈ toLeBytes w x, b < 256 := by
  induction w generalizing x with
  | zero => simp [toLeBytes]
  | succ w ih =>
    intro b hb
    simp only [toLeBytes, List.mem_cons] at hb
    rcases hb with h | h
    · omega
    · exact ih _ b h

theorem serialize_length (h : DatabaseHeader) (hv : h.Valid) :
    h.serialize.length = headerSize := by
  obtain ⟨h4, -⟩ := hv
  simp [DatabaseHeader.serialize, toLeBytes_length, h4, headerSize]

theorem serialize_eq_flat (h : DatabaseHeader) (h4 : h.magic.length = 4) :
    h.serialize = h.magic ++ (toLeBytes 4 h.version ++ (toLeBytes 8 h.page_size ++
      (toLeBytes 8 h.page_count ++ (toLeBytes 8 h.freelist_head_page ++
      toLeBytes 8 h.schema_root_page)))) := by
  have hlen : (h.magic ++ (toLeBytes 4 h.version ++ (toLeBytes 8 h.page_size ++
      (toLeBytes 8 h.page_count ++ (toLeBytes 8 h.freelist_head_page ++
      toLeBytes 8 h.schema_root_page))))).length = 40 := by
    simp [toLeBytes_length, h4]
  simp only [DatabaseHeader.serialize, headerSize, List.append_assoc]
  rw [hlen]
  simp only [Nat.sub_self, List.replicate_zero, List.append_nil]
  exact List.take_of_length_le (le_of_eq hlen)

/-- Round-trip: on every valid header, `deserialize` inverts `serialize`. -/
theorem deserialize_serialize (h : DatabaseHeader) (hv : h.Valid) :
    DatabaseHeader.deserialize h.serialize = .ok h := by
  obtain ⟨h4, hm, hver, hps, hpc, hfl, hsr⟩ := hv
  have e4 := toLeBytes_length 4 h.version
  have e8a := toLeBytes_length 8 h.page_size
  have e8b := toLeBytes_length 8 h.page_count
  have e8c := toLeBytes_length 8 h.freelist_head_page
  have hser := serialize_eq_flat h h4
  have hlen : h.serialize.length = headerSize :=
    serialize_length h ⟨h4, hm, hver, hps, hpc, hfl, hsr⟩
  have d4 : h.serialize.drop 4 = toLeBytes 4 h.version ++ (toLeBytes 8 h.page_size ++
      (toLeBytes 8 h.page_count ++ (toLeBytes 8 h.freelist_head_page ++
      toLeBytes 8 h.schema_root_page))) := by
    rw [hser]; exact List.drop_left' h4
  have d8 : h.serialize.drop 8 = toLeBytes 8 h.page_size ++
      (toLeBytes 8 h.page_count ++ (toLeBytes 8 h.freelist_head_page ++
      toLeBytes 8 h.schema_root_page)) := by
    have : h.serialize.drop 8 = (h.serialize.drop 4).drop 4 := by
      rw [List.drop_drop]
    rw [this, d4]; exact List.drop_left' e4
  have d16 : h.serialize.drop 16 = toLeBytes 8 h.page_count ++
      (toLeBytes 8 h.freelist_head_page ++ toLeBytes 8 h.schema_root_page) := by
    have : h.serialize.drop 16 = (h.serialize.drop 8).drop 8 := by
      rw [List.drop_drop]
    rw [this, d8]; exact List.drop_left' e8a
  have d24 : h.serialize.drop 24 = toLeBytes 8 h.freelist_head_page ++
      toLeBytes 8 h.schema_root_page := by
    have : h.serialize.drop 24 = (h.serialize.drop 16).drop 8 := by
      rw [List.drop_drop]
    rw [this, d16]; exact List.drop_left' e8b
  have d32 : h.serialize.drop 32 = toLeBytes 8 h.schema_root_page := by
    have : h.serialize.drop 32 = (h.serialize.drop 24).drop 8 := by
      rw [List.drop_drop]
    rw [this, d24]; exact List.drop_left' e8c
  rw [DatabaseHeader.deserialize, if_neg (by omega)]
  congr 1
  have t0 : h.serialize.take 4 = h.magic := by
    rw [hser]; exact List.take_left' h4
  have t4 : (h.serialize.drop 4).take 4 = toLeBytes 4 h.version := by
    rw [d4]; exact List.take_left' e4
  have t8 : (h.serialize.drop 8).take 8 = toLeBytes 8 h.page_size := by
    rw [d8]; exact List.take_left' e8a
  have t16 : (h.serialize.drop 16).take 8 = toLeBytes 8 h.page_count := by
    rw [d16]; exact List.take_left' e8b
  have t24 : (h.serialize.drop 24).take 8 = toLeBytes 8 h.freelist_head_page := by
    rw [d24]; exact List.take_left' e8c
  have t32 : (h.serialize.drop 32).take 8 = toLeBytes 8 h.schema_root_page := by
    rw [d32]
    have : (toLeBytes 8 h.schema_root_page).length ≤ 8 := le_of_eq (toLeBytes_length 8 _)
    exact List.take_of_length_le this
  rw [t0, t4, t8, t16, t24, t32,
    fromLeBytes_toLeBytes 4 h.version (by norm_num at hver ⊢; omega),
    fromLeBytes_toLeBytes 8 h.page_size (by norm_num at hps ⊢; omega),
    fromLeBytes_toLeBytes 8 h.page_count (by norm_num at hpc ⊢; omega),
    fromLeBytes_toLeBytes 8 h.freelist_head_page (by norm_num at hfl ⊢; omega),
    fromLeBytes_toLeBytes 8 h.schema_root_page (by norm_num at hsr ⊢; omega)]

theorem applyPMOp_page_count (m : DiskPageManager) (op : PMOp)
    (hm : 1 ≤ m.header.page_count) : 1 ≤ (applyPMOp m op).1.header.page_count := by
  cases op with
  | alloc =>
    by_cases hfl : m.header.freelist_head_page ≠ 0
    · simp [applyPMOp, DiskPageManager.alloc_page, hfl]
      exact hm
    · simp only [ne_eq, Decidable.not_not] at hfl
      simp [applyPMOp, DiskPageManager.alloc_page, hfl]
  | free page_id =>
    by_cases hc : page_id = 0 ∨ m.header.page_count ≤ page_id ∨
        page_id ∈ freelistChain m m.header.page_count m.header.freelist_head_page
    · simp only [applyPMOp, DiskPageManager.free_page, if_pos hc]
      exact hm
    · simp only [applyPMOp, DiskPageManager.free_page, if_neg hc]
      exact hm
  | write page_id buf => exact hm
  | read page_id buf => exact hm
  | sync => exact hm
  | close => exact hm

theorem applyPMOp_alloc_ne_zero (m : DiskPageManager) (op : PMOp)
    (hm : 1 ≤ m.header.page_count) (id : Nat)
    (hid : (applyPMOp m op).2 = some id) : id ≠ 0 := by
  cases op with
  | alloc =>
    rw [applyPMOp, DiskPageManager.alloc_page] at hid
    by_cases hfl : m.header.freelist_head_page ≠ 0
    · rw [if_pos hfl] at hid
      simp only [Option.some.injEq] at hid
      omega
    · rw [if_neg hfl] at hid
      simp only [Option.some.injEq] at hid
      omega
  | free page_id =>
    rw [applyPMOp] at hid
    rcases hfp : m.free_page page_id with m' | e <;> simp [hfp] at hid
  | write page_id buf => simp [applyPMOp, DiskPageManager.write_page] at hid
  | read page_id buf => simp [applyPMOp] at hid
  | sync => simp [applyPMOp, DiskPageManager.sync] at hid
  | close => simp [applyPMOp, DiskPageManager.close, DiskPageManager.sync] at hid

/-- Across every sequence of calls from a manager whose header satisfies the
documented invariant `page_count ≥ 1`, `alloc_page` never hands out page 0. -/
theorem runPMOps_zero_not_allocated (m : DiskPageManager) (ops : List PMOp)
    (hm : 1 ≤ m.header.page_count) : 0 ∉ (runPMOps m ops).2 := by
  induction ops generalizing m with
  | nil => simp [runPMOps]
  | cons op ops ih =>
    simp only [runPMOps, List.mem_append, not_or]
    refine ⟨?_, ih _ (applyPMOp_page_count m op hm)⟩
    intro hmem
    rcases h2 : (applyPMOp m op).2 with - | id
    · simp [h2] at hmem
    · rw [h2] at hmem
      simp only [Option.toList_some, List.mem_singleton] at hmem
      exact applyPMOp_alloc_ne_zero m op hm id h2 hmem.symm

/-! ## Supporting facts about `readAt` / `writeAt` -/

/-- The bytes written by `write_at` land exactly at `offset`. -/
theorem writeAt_drop_take (file : List Nat) (offset : Nat) (buf : List Nat) :
    ((writeAt file offset buf).drop offset).take buf.length = buf := by
  have hpre : (file.take offset ++ List.replicate (offset - file.length) 0).length = offset := by
    simp only [List.length_append, List.length_take, List.length_replicate]
    omega
  rw [writeAt, List.append_assoc, List.drop_left' hpre, List.take_left' rfl]

/-- Reading entirely past end-of-file yields no bytes. -/
theorem readAt_past_eof (file : List Nat) (offset bufLen : Nat)
    (h : file.length ≤ offset) : readAt file offset bufLen = [] := by
  simp [readAt, List.drop_eq_nil_of_le h]

/-- Reading a page past end-of-file on a readable descriptor succeeds and
leaves the buffer untouched. -/
theorem read_page_past_eof (m : DiskPageManager) (page_id : Nat) (buf : List Nat)
    (hr : m.readable = true) (h : m.file.length ≤ page_id * m.page_size) :
    m.read_page page_id buf = .ok buf := by
  simp [DiskPageManager.read_page, hr, readAt_past_eof _ _ _ h]

theorem lookupEntry_insertEntry_self [LinearOrder K] (k : K) (v : V) (es : List (K × V)) :
    lookupEntry k (insertEntry k v es) = some v := by
  induction es with
  | nil => simp [insertEntry, lookupEntry]
  | cons e es ih =>
    obtain ⟨k', v'⟩ := e
    by_cases h1 : k < k'
    · simp [insertEntry, h1, lookupEntry]
    · by_cases h2 : k' = k
      · simp [insertEntry, h1, h2, lookupEntry]
      · simp [insertEntry, h1, h2, lookupEntry, ih]

theorem lookupEntry_insertEntry_ne [LinearOrder K] (k k'' : K) (v : V) (es : List (K × V))
    (hne : k'' ≠ k) :
    lookupEntry k'' (insertEntry k v es) = lookupEntry k'' es := by
  induction es with
  | nil => simp [insertEntry, lookupEntry, Ne.symm hne]
  | cons e es ih =>
    obtain ⟨k', v'⟩ := e
    by_cases h1 : k < k'
    · simp [insertEntry, h1, lookupEntry, Ne.symm hne]
    · by_cases h2 : k' = k
      · subst h2
        simp [insertEntry, h1, lookupEntry, Ne.symm hne]
      · simp [insertEntry, h1, h2, lookupEntry, ih]

theorem insertEntry_ne_nil [LinearOrder K] (k : K) (v : V) (es : List (K × V)) :
    insertEntry k v es ≠ [] := by
  cases es with
  | nil => simp [insertEntry]
  | cons e es =>
    obtain ⟨k', v'⟩ := e
    by_cases h1 : k < k'
    · simp [insertEntry, h1]
    · by_cases h2 : k' = k
      · simp [insertEntry, h1, h2]
      · simp [insertEntry, h1, h2]

theorem mem_insertEntry [LinearOrder K] (k : K) (v : V) (es : List (K × V)) :
    ∀ e ∈ insertEntry k v es, e = (k, v) ∨ e ∈ es := by
  induction es with
  | nil => simp [insertEntry]
  | cons e' es ih =>
    obtain ⟨k', v'⟩ := e'
    by_cases h1 : k < k'
    · intro e he
      simp only [insertEntry, if_pos h1, List.mem_cons] at he
      rcases he with rfl | rfl | he <;> simp [*]
    · by_cases h2 : k' = k
      · intro e he
        simp only [insertEntry, if_neg h1, if_pos h2, List.mem_cons] at he
        tauto
      · intro e he
        simp only [insertEntry, if_neg h1, if_neg h2, List.mem_cons] at he
        rcases he with rfl | he
        · simp
        · rcases ih e he with h | h
          · tauto
          · simp [h]

theorem insertEntry_pairwise [LinearOrder K] (k : K) (v : V) (es : List (K × V))
    (hs : EntriesSorted es) : EntriesSorted (insertEntry k v es) := by
  induction es with
  | nil => simp [insertEntry, EntriesSorted]
  | cons e es ih =>
    obtain ⟨k', v'⟩ := e
    rw [EntriesSorted, List.pairwise_cons] at hs
    obtain ⟨hall, htail⟩ := hs
    by_cases h1 : k < k'
    · rw [EntriesSorted, insertEntry, if_pos h1]
      refine List.Pairwise.cons ?_ (List.Pairwise.cons hall htail)
      intro e he
      rcases List.mem_cons.mp he with rfl | he
      · exact h1
      · exact lt_trans h1 (hall e he)
    · by_cases h2 : k' = k
      · subst h2
        rw [EntriesSorted, insertEntry, if_neg h1, if_pos rfl]
        exact List.Pairwise.cons hall htail
      · rw [EntriesSorted, insertEntry, if_neg h1, if_neg h2]
        refine List.Pairwise.cons ?_ (ih htail)
        intro e he
        rcases mem_insertEntry k v es e he with rfl | he
        · exact lt_of_le_of_ne (not_lt.mp h1) h2
        · exact hall e he

theorem eraseEntry_sublist [LinearOrder K] (k : K) (es : List (K × V)) :
    (eraseEntry k es).Sublist es := by
  induction es with
  | nil => simp [eraseEntry]
  | cons e es ih =>
    obtain ⟨k', v'⟩ := e
    by_cases h : k' = k
    · rw [eraseEntry, if_pos h]
      exact (List.sublist_cons_self _ _)
    · rw [eraseEntry, if_neg h]
      exact ih.cons₂ _

theorem eraseEntry_pairwise [LinearOrder K] (k : K) (es : List (K × V))
    (hs : EntriesSorted es) : EntriesSorted (eraseEntry k es) :=
  hs.sublist (eraseEntry_sublist k es)

theorem lookupEntry_eq_none [LinearOrder K] (k : K) (es : List (K × V))
    (h : ∀ e ∈ es, e.1 ≠ k) : lookupEntry k es = none := by
  induction es with
  | nil => rfl
  | cons e es ih =>
    obtain ⟨k', v'⟩ := e
    rw [lookupEntry, if_neg (h (k', v') (by simp))]
    exact ih (fun e he => h e (List.mem_cons_of_mem _ he))

theorem lookupEntry_eraseEntry_self [LinearOrder K] (k : K) (es : List (K × V))
    (hs : EntriesSorted es) : lookupEntry k (eraseEntry k es) = none := by
  induction es with
  | nil => rfl
  | cons e es ih =>
    obtain ⟨k', v'⟩ := e
    rw [EntriesSorted, List.pairwise_cons] at hs
    obtain ⟨hall, htail⟩ := hs
    by_cases h : k' = k
    · subst h
      rw [eraseEntry, if_pos rfl]
      exact lookupEntry_eq_none _ _ (fun e he => ne_of_gt (hall e he))
    · rw [eraseEntry, if_neg h, lookupEntry, if_neg h]
      exact ih htail

theorem lookupEntry_eraseEntry_ne [LinearOrder K] (k k'' : K) (es : List (K × V))
    (hne : k'' ≠ k) : lookupEntry k'' (eraseEntry k es) = lookupEntry k'' es := by
  induction es with
  | nil => rfl
  | cons e es ih =>
    obtain ⟨k', v'⟩ := e
    by_cases h : k' = k
    · subst h
      rw [eraseEntry, if_pos rfl, lookupEntry, if_neg (Ne.symm hne)]
    · rw [eraseEntry, if_neg h, lookupEntry, lookupEntry]
      by_cases h2 : k' = k''
      · simp [h2]
      · simp [h2, ih]

theorem lookupEntry_append [LinearOrder K] (k : K) (A B : List (K × V)) :
    lookupEntry k (A ++ B) =
      match lookupEntry k A with
      | some v => some v
      | none => lookupEntry k B := by
  induction A with
  | nil => simp [lookupEntry]
  | cons e A ih =>
    obtain ⟨k', v'⟩ := e
    by_cases h : k' = k
    · simp [lookupEntry, h]
    · simp [lookupEntry, h, ih]

theorem lbOk_trans [LinearOrder K] {lo : Option K} {a b : K} (h1 : lbOk lo a)
    (h2 : a ≤ b) : lbOk lo b := by
  cases lo with
  | none => trivial
  | some l => exact le_trans h1 h2

theorem ubOk_trans [LinearOrder K] {hi : Option K} {a b : K} (h1 : a ≤ b)
    (h2 : ubOk b hi) : ubOk a hi := by
  cases hi with
  | none => trivial
  | some u => exact le_trans h1 h2

/-- Splitting the pair list at a position `n` holding separator `sep`:
bound decomposition plus the equivalence of searching the whole list with
routing through `sep` first. -/
theorem restSplit_spec [LinearOrder K] (n : Nat) (lo hi : Option K) (c0 : Node K V)
    (rest : NodeRest K V) (sep : K) (c : Node K V) (tail : NodeRest K V)
    (h : WFRest lo hi c0 rest) (hd : rest.drop n = .cons sep c tail) :
    WFRest lo (some sep) c0 (rest.take n) ∧ inb lo hi sep ∧
      WFRest (some sep) hi c tail ∧
      ∀ k, searchRest k c0 rest =
        if k < sep then searchRest k c0 (rest.take n) else searchRest k c tail := by
  induction n generalizing lo c0 rest with
  | zero =>
    rw [NodeRest.drop] at hd
    subst hd
    cases h with
    | cons hsep hc0 ht =>
      refine ⟨.nil hc0, hsep, ht, ?_⟩
      intro k
      by_cases hk : k < sep <;> simp [searchRest, NodeRest.take, hk]
  | succ n ih =>
    cases rest with
    | nil => simp [NodeRest.drop] at hd
    | cons s c1 t =>
      rw [NodeRest.drop] at hd
      cases h with
      | cons hsep1 hc0 ht =>
        obtain ⟨TK, SB, TL, SE⟩ := ih (some s) c1 t ht hd
        have hssep : s ≤ sep := SB.1
        refine ⟨?_, ⟨lbOk_trans hsep1.1 hssep, SB.2⟩, TL, ?_⟩
        · rw [NodeRest.take]
          exact .cons ⟨hsep1.1, hssep⟩ hc0 TK
        · intro k
          by_cases hks : k < s
          · have hksep : k < sep := lt_of_lt_of_le hks hssep
            simp [searchRest, NodeRest.take, hks, hksep]
          · by_cases hksep : k < sep <;>
              simp [searchRest, NodeRest.take, hks, hksep, SE k]

/-- Splitting an internal node via `split_internal` preserves well-formedness and search results. -/
theorem splitInternal_spec [LinearOrder K] (lo hi : Option K) (c0 : Node K V)
    (rest : NodeRest K V) (h : WFRest lo hi c0 rest) :
    WFIR lo hi (splitInternal c0 rest) ∧
    ∀ k, searchIR k (splitInternal c0 rest) = searchRest k c0 rest := by
  cases hd : rest.drop (rest.length / 2) with
  | nil =>
    rw [splitInternal, hd]
    exact ⟨.internal h, fun k => by simp [searchIR, searchNode]⟩
  | cons sep c tail =>
    rw [splitInternal, hd]
    obtain ⟨TK, SB, TL, SE⟩ := restSplit_spec (rest.length / 2) lo hi c0 rest sep c tail h hd
    refine ⟨⟨SB, .internal TK, .internal TL⟩, ?_⟩
    intro k
    rw [SE k]
    by_cases hk : k < sep <;> simp [searchIR, searchNode, hk]

/-- Splitting a leaf via `split_leaf` preserves well-formedness and lookup results. -/
theorem splitLeafEntries_spec [LinearOrder K] (lo hi : Option K) (es : List (K × V))
    (hs : EntriesSorted es) (hb : ∀ e ∈ es, inb lo hi e.1) :
    WFIR lo hi (splitLeafEntries es) ∧
    ∀ k, searchIR k (splitLeafEntries es) = lookupEntry k es := by
  cases hd : es.drop (es.length / 2) with
  | nil =>
    rw [splitLeafEntries, hd]
    exact ⟨.leaf hs hb, fun k => by simp [searchIR, searchNode]⟩
  | cons e tail =>
    obtain ⟨sep, v⟩ := e
    rw [splitLeafEntries, hd]
    have hsplit : es.take (es.length / 2) ++ es.drop (es.length / 2) = es :=
      List.take_append_drop _ es
    have hpw : List.Pairwise (fun a b : K × V => a.1 < b.1)
        (es.take (es.length / 2) ++ es.drop (es.length / 2)) := by
      rw [hsplit]; exact hs
    rw [List.pairwise_append] at hpw
    obtain ⟨PA, PB, cross⟩ := hpw
    have f1 : ∀ a ∈ es.take (es.length / 2), a.1 < sep := by
      intro a ha
      exact cross a ha (sep, v) (by rw [hd]; simp)
    have f2 : ∀ b ∈ es.drop (es.length / 2), sep ≤ b.1 := by
      intro b hbm
      rw [hd] at hbm PB
      rcases List.mem_cons.mp hbm with rfl | hbm
      · exact le_refl _
      · exact le_of_lt ((List.pairwise_cons.mp PB).1 b hbm)
    have hmemA : ∀ a ∈ es.take (es.length / 2), a ∈ es :=
      fun a ha => (List.take_subset _ es) ha
    have hmemB : ∀ b ∈ es.drop (es.length / 2), b ∈ es :=
      fun b hbm => (List.drop_subset _ es) hbm
    have hsepmem : (sep, v) ∈ es := hmemB _ (by rw [hd]; simp)
    refine ⟨⟨hb _ hsepmem, ?_, ?_⟩, ?_⟩
    · refine .leaf PA ?_
      intro a ha
      exact ⟨(hb a (hmemA a ha)).1, le_of_lt (f1 a ha)⟩
    · rw [← hd]
      refine .leaf PB ?_
      intro b hbm
      exact ⟨f2 b hbm, (hb b (hmemB b hbm)).2⟩
    · intro k
      conv_rhs => rw [← hsplit]
      rw [lookupEntry_append]
      by_cases hk : k < sep
      · have hBnone : lookupEntry k (es.drop (es.length / 2)) = none := by
          refine lookupEntry_eq_none _ _ ?_
          intro b hbm
          exact ne_of_gt (lt_of_lt_of_le hk (f2 b hbm))
        rw [hBnone]
        simp only [searchIR, if_pos hk, searchNode]
        cases lookupEntry k (es.take (es.length / 2)) <;> simp
      · have hAnone : lookupEntry k (es.take (es.length / 2)) = none := by
          refine lookupEntry_eq_none _ _ ?_
          intro a ha
          exact ne_of_lt (lt_of_lt_of_le (f1 a ha) (not_lt.mp hk))
        rw [hAnone]
        simp only [searchIR, if_neg hk, searchNode, ← hd]

/-! ## Insert correctness -/

mutual
/-- Inserting into a well-formed subtree yields a well-formed result in which
`k` is bound to `v` and every other key's search result is unchanged. -/
theorem insertNode_spec [LinearOrder K] (order : Nat) (k : K) (v : V) (lo hi : Option K)
    (t : Node K V) (ht : WF lo hi t) (hk : inb lo hi k) :
    WFIR lo hi (insertNode order k v t) ∧
    searchIR k (insertNode order k v t) = some v ∧
    ∀ k', k' ≠ k → searchIR k' (insertNode order k v t) = searchNode k' t := by
  cases t with
  | leaf es =>
    cases ht with
    | leaf hs hb =>
      have hs' : EntriesSorted (insertEntry k v es) := insertEntry_pairwise k v es hs
      have hb' : ∀ e ∈ insertEntry k v es, inb lo hi e.1 := by
        intro e he
        rcases mem_insertEntry k v es e he with rfl | he
        · exact hk
        · exact hb e he
      by_cases hlen : (insertEntry k v es).length < order
      · simp only [insertNode, if_pos hlen]
        refine ⟨.leaf hs' hb', ?_, ?_⟩
        · simp [searchIR, searchNode, lookupEntry_insertEntry_self]
        · intro k' hne
          simp [searchIR, searchNode, lookupEntry_insertEntry_ne k k' v es hne]
      · simp only [insertNode, if_neg hlen]
        obtain ⟨W, S⟩ := splitLeafEntries_spec lo hi (insertEntry k v es) hs' hb'
        refine ⟨W, ?_, ?_⟩
        · rw [S k, lookupEntry_insertEntry_self]
        · intro k' hne
          rw [S k', lookupEntry_insertEntry_ne k k' v es hne]
          simp [searchNode]
  | internal c0 rest =>
    cases ht with
    | internal hr =>
      obtain ⟨W, S, O⟩ := insChild_spec order k v lo hi c0 rest hr hk
      by_cases hlen : (insChild order k v c0 rest).2.length + 1 ≤ order
      · simp only [insertNode, if_pos hlen]
        refine ⟨.internal W, ?_, ?_⟩
        · simp only [searchIR, searchNode]
          exact S
        · intro k' hne
          simp only [searchIR, searchNode]
          exact O k' hne
      · simp only [insertNode, if_neg hlen]
        obtain ⟨W2, S2⟩ := splitInternal_spec lo hi _ _ W
        refine ⟨W2, ?_, ?_⟩
        · rw [S2 k, S]
        · intro k' hne
          rw [S2 k', O k' hne]
          simp [searchNode]
termination_by sizeOf t

/-- Inserting into the child selected by the separator scan, with the split
splice: the pair list stays well-formed, finds `k ↦ v`, and routes every
other key to its old result. -/
theorem insChild_spec [LinearOrder K] (order : Nat) (k : K) (v : V) (lo hi : Option K)
    (c0 : Node K V) (rest : NodeRest K V) (h : WFRest lo hi c0 rest) (hk : inb lo hi k) :
    WFRest lo hi (insChild order k v c0 rest).1 (insChild order k v c0 rest).2 ∧
    searchRest k (insChild order k v c0 rest).1 (insChild order k v c0 rest).2 = some v ∧
    ∀ k', k' ≠ k →
      searchRest k' (insChild order k v c0 rest).1 (insChild order k v c0 rest).2 =
        searchRest k' c0 rest := by
  cases rest with
  | nil =>
    cases h with
    | nil hc0 =>
      obtain ⟨W, S, O⟩ := insertNode_spec order k v lo hi c0 hc0 hk
      cases hir : insertNode order k v c0 with
      | one n =>
        rw [hir] at W S O
        simp only [WFIR] at W
        simp only [searchIR] at S O
        simp only [insChild, hir]
        refine ⟨.nil W, ?_, ?_⟩
        · simp [searchRest, S]
        · intro k' hne
          simp [searchRest, O k' hne]
      | split l s r =>
        rw [hir] at W S O
        simp only [WFIR] at W
        simp only [searchIR] at S O
        obtain ⟨hsep, hl, hr⟩ := W
        simp only [insChild, hir]
        refine ⟨.cons hsep hl (.nil hr), ?_, ?_⟩
        · by_cases hks : k < s <;> simp only [searchRest, if_pos, if_neg, hks] <;>
            simpa [hks] using S
        · intro k' hne
          have O' := O k' hne
          by_cases hks : k' < s <;> simp only [searchRest, if_pos, if_neg, hks] <;>
            simpa [hks] using O'
  | cons sep c tail =>
    cases h with
    | cons hsep hc0 ht =>
      by_cases hks : k < sep
      · have hk' : inb lo (some sep) k := ⟨hk.1, le_of_lt hks⟩
        obtain ⟨W, S, O⟩ := insertNode_spec order k v lo (some sep) c0 hc0 hk'
        cases hir : insertNode order k v c0 with
        | one n =>
          rw [hir] at W S O
          simp only [WFIR] at W
          simp only [searchIR] at S O
          simp only [insChild, if_pos hks, hir]
          refine ⟨.cons hsep W ht, ?_, ?_⟩
          · simp [searchRest, hks, S]
          · intro k' hne
            by_cases h1 : k' < sep <;> simp [searchRest, h1, O k' hne]
        | split l s r =>
          rw [hir] at W S O
          simp only [WFIR] at W
          simp only [searchIR] at S O
          obtain ⟨hs', hl, hr⟩ := W
          have hssep : s ≤ sep := hs'.2
          simp only [insChild, if_pos hks, hir]
          refine ⟨?_, ?_, ?_⟩
          · exact .cons ⟨hs'.1, ubOk_trans hssep hsep.2⟩ hl
              (.cons ⟨hssep, hsep.2⟩ hr ht)
          · by_cases hks2 : k < s
            · simp [searchRest, hks2]
              simpa [hks2] using S
            · simp [searchRest, hks2, hks]
              simpa [hks2] using S
          · intro k' hne
            have O' := O k' hne
            by_cases h1 : k' < s
            · have h2 : k' < sep := lt_of_lt_of_le h1 hssep
              simp only [searchRest, if_pos h1, if_pos h2]
              simpa [h1] using O'
            · by_cases h2 : k' < sep
              · simp only [searchRest, if_neg h1, if_pos h2]
                simpa [h1] using O'
              · simp only [searchRest, if_neg h1, if_neg h2]
      · have hsk : sep ≤ k := not_lt.mp hks
        have hk' : inb (some sep) hi k := ⟨hsk, hk.2⟩
        obtain ⟨W, S, O⟩ := insChild_spec order k v (some sep) hi c tail ht hk'
        simp only [insChild, if_neg hks]
        refine ⟨.cons hsep hc0 W, ?_, ?_⟩
        · simp [searchRest, hks, S]
        · intro k' hne
          by_cases h1 : k' < sep <;> simp [searchRest, h1, O k' hne]
termination_by sizeOf c0 + sizeOf rest
end

/-! ## Delete correctness -/

mutual
/-- Deleting from a well-formed subtree keeps it well-formed, removes `k`,
and leaves every other key's search result unchanged. -/
theorem deleteNode_spec [LinearOrder K] (k : K) (lo hi : Option K) (t : Node K V)
    (ht : WF lo hi t) :
    WF lo hi (deleteNode k t) ∧ searchNode k (deleteNode k t) = none ∧
    ∀ k', k' ≠ k → searchNode k' (deleteNode k t) = searchNode k' t := by
  cases t with
  | leaf es =>
    cases ht with
    | leaf hs hb =>
      simp only [deleteNode]
      refine ⟨?_, ?_, ?_⟩
      · exact .leaf (eraseEntry_pairwise k es hs)
          (fun e he => hb e ((eraseEntry_sublist k es).subset he))
      · simp only [searchNode]
        exact lookupEntry_eraseEntry_self k es hs
      · intro k' hne
        simp only [searchNode]
        exact lookupEntry_eraseEntry_ne k k' es hne
  | internal c0 rest =>
    cases ht with
    | internal hr =>
      obtain ⟨W, S, O⟩ := delChild_spec k lo hi c0 rest hr
      simp only [deleteNode]
      refine ⟨.internal W, ?_, ?_⟩
      · simp only [searchNode]
        exact S
      · intro k' hne
        simp only [searchNode]
        exact O k' hne
termination_by sizeOf t

/-- Delete inside the selected child: the pair list stays well-formed, `k`
is gone, and every other key routes to its old result. -/
theorem delChild_spec [LinearOrder K] (k : K) (lo hi : Option K) (c0 : Node K V)
    (rest : NodeRest K V) (h : WFRest lo hi c0 rest) :
    WFRest lo hi (delChild k c0 rest).1 (delChild k c0 rest).2 ∧
    searchRest k (delChild k c0 rest).1 (delChild k c0 rest).2 = none ∧
    ∀ k', k' ≠ k →
      searchRest k' (delChild k c0 rest).1 (delChild k c0 rest).2 =
        searchRest k' c0 rest := by
  cases rest with
  | nil =>
    cases h with
    | nil hc0 =>
      obtain ⟨W, S, O⟩ := deleteNode_spec k lo hi c0 hc0
      simp only [delChild]
      exact ⟨.nil W, by simp [searchRest, S],
        fun k' hne => by simp [searchRest, O k' hne]⟩
  | cons sep c tail =>
    cases h with
    | cons hsep hc0 ht =>
      by_cases hks : k < sep
      · obtain ⟨W, S, O⟩ := deleteNode_spec k lo (some sep) c0 hc0
        simp only [delChild, if_pos hks]
        refine ⟨.cons hsep W ht, ?_, ?_⟩
        · simp [searchRest, hks, S]
        · intro k' hne
          by_cases h1 : k' < sep <;> simp [searchRest, h1, O k' hne]
      · obtain ⟨W, S, O⟩ := delChild_spec k (some sep) hi c tail ht
        simp only [delChild, if_neg hks]
        refine ⟨.cons hsep hc0 W, ?_, ?_⟩
        · simp [searchRest, hks, S]
        · intro k' hne
          by_cases h1 : k' < sep <;> simp [searchRest, h1, O k' hne]
termination_by sizeOf c0 + sizeOf rest
end

/-! ## Engine-level correctness -/

theorem BTreeEngine.new_wf [LinearOrder K] (order : Nat) :
    WF none none (BTreeEngine.new (K := K) (V := V) order).root :=
  .leaf (by simp [EntriesSorted]) (by simp)

theorem BTreeEngine.search_new [LinearOrder K] (order : Nat) (k : K) :
    (BTreeEngine.new (K := K) (V := V) order).search k = none := by
  simp [BTreeEngine.new, BTreeEngine.search, searchNode, lookupEntry]

/-- Root-level insert: well-formedness is preserved (rebuilding the root on
a split) and search afterwards returns the new binding for `k` and the old
result for every other key. -/
theorem BTreeEngine.insert_spec [LinearOrder K] (e : BTreeEngine K V)
    (he : WF none none e.root) (k : K) (v : V) :
    WF none none (e.insert k v).root ∧
    ∀ k', (e.insert k v).search k' = if k' = k then some v else e.search k' := by
  obtain ⟨W, S, O⟩ := insertNode_spec e.order k v none none e.root he ⟨trivial, trivial⟩
  cases hir : insertNode e.order k v e.root with
  | one n =>
    rw [hir] at W S O
    simp only [WFIR] at W
    simp only [searchIR] at S O
    refine ⟨?_, ?_⟩
    · simp only [BTreeEngine.insert, hir]
      exact W
    · intro k'
      by_cases hk' : k' = k
      · subst hk'
        simp only [BTreeEngine.insert, BTreeEngine.search, hir, if_pos rfl]
        exact S
      · simp only [BTreeEngine.insert, BTreeEngine.search, hir, if_neg hk']
        exact O k' hk'
  | split l s r =>
    rw [hir] at W S O
    simp only [WFIR] at W
    simp only [searchIR] at S O
    obtain ⟨hsep, hl, hr⟩ := W
    refine ⟨?_, ?_⟩
    · simp only [BTreeEngine.insert, hir]
      exact .internal (.cons hsep hl (.nil hr))
    · intro k'
      by_cases hk' : k' = k
      · subst hk'
        simp only [BTreeEngine.insert, BTreeEngine.search, hir, if_pos rfl, searchNode]
        by_cases hks : k' < s <;> simp only [searchRest, if_pos, if_neg, hks] <;>
          simpa [hks] using S
      · simp only [BTreeEngine.insert, BTreeEngine.search, hir, if_neg hk', searchNode]
        have O' := O k' hk'
        by_cases hks : k' < s <;> simp only [searchRest, if_pos, if_neg, hks] <;>
          simpa [hks] using O'

/-- Root-level delete: well-formedness is preserved, `k` is gone, every other
key's search result is unchanged. -/
theorem BTreeEngine.delete_spec [LinearOrder K] (e : BTreeEngine K V)
    (he : WF none none e.root) (k : K) :
    WF none none (e.delete k).root ∧ (e.delete k).search k = none ∧
    ∀ k', k' ≠ k → (e.delete k).search k' = e.search k' := by
  obtain ⟨W, S, O⟩ := deleteNode_spec k none none e.root he
  exact ⟨W, S, O⟩

theorem runBTOps_wf [LinearOrder K] (e : BTreeEngine K V) (he : WF none none e.root)
    (ops : List (BTOp K V)) : WF none none (runBTOps e ops).root := by
  induction ops generalizing e with
  | nil => exact he
  | cons op ops ih =>
    cases op with
    | insert k v => exact ih _ (BTreeEngine.insert_spec e he k v).1
    | delete k => exact ih _ (BTreeEngine.delete_spec e he k).1

theorem runInserts_search [LinearOrder K] (ps : List (K × V)) (e : BTreeEngine K V)
    (he : WF none none e.root) (k : K) :
    (runInserts e ps).search k =
      match lastInserted k ps with
      | some w => some w
      | none => e.search k := by
  induction ps generalizing e with
  | nil => simp [runInserts, lastInserted]
  | cons p ps ih =>
    obtain ⟨k', v⟩ := p
    obtain ⟨W, S⟩ := BTreeEngine.insert_spec e he k' v
    rw [runInserts, ih (e.insert k' v) W, lastInserted]
    cases lastInserted k ps with
    | some w => simp
    | none =>
      simp only
      rw [S k]
      by_cases hk : k = k'
      · subst hk
        simp
      · rw [if_neg hk, if_neg (Ne.symm hk)]

/-- Last-write-wins: after any sequence of inserts into a fresh tree, search
returns the most recently inserted value for the key, `none` when the key
was never inserted. -/
theorem runInserts_from_new [LinearOrder K] (order : Nat) (ps : List (K × V)) (k : K) :
    (runInserts (BTreeEngine.new order) ps).search k = lastInserted k ps := by
  rw [runInserts_search ps _ (BTreeEngine.new_wf order) k]
  cases lastInserted k ps <;> simp [BTreeEngine.search_new]

/-! ## Evaluation helpers for open and deserialize -/

/-- Running `deserialize` on any buffer of at least 40 bytes succeeds with the field
extraction, whatever the magic and version bytes hold. -/
theorem deserialize_ok (bytes : List Nat) (h : ¬ bytes.length < headerSize) :
    DatabaseHeader.deserialize bytes =
      .ok { magic := bytes.take 4
            version := fromLeBytes ((bytes.drop 4).take 4)
            page_size := fromLeBytes ((bytes.drop 8).take 8)
            page_count := fromLeBytes ((bytes.drop 16).take 8)
            freelist_head_page := fromLeBytes ((bytes.drop 24).take 8)
            schema_root_page := fromLeBytes ((bytes.drop 32).take 8) } := by
  rw [DatabaseHeader.deserialize, if_neg h]

/-- Running `open` on an existing file of at least `page_size ≥ 40` bytes succeeds,
decoding the header fields out of the first `page_size` bytes and adopting
the stored `page_size`. -/
theorem openFile_some_ok (bytes : List Nat) (ps : Nat) (h40 : headerSize ≤ ps)
    (hlen : ps ≤ bytes.length) :
    DiskPageManager.openFile (some bytes) ps =
      .ok (DiskPageManager.mk bytes bytes
        (fromLeBytes (((bytes.take ps).drop 8).take 8))
        { magic := (bytes.take ps).take 4
          version := fromLeBytes (((bytes.take ps).drop 4).take 4)
          page_size := fromLeBytes (((bytes.take ps).drop 8).take 8)
          page_count := fromLeBytes (((bytes.take ps).drop 16).take 8)
          freelist_head_page := fromLeBytes (((bytes.take ps).drop 24).take 8)
          schema_root_page := fromLeBytes (((bytes.take ps).drop 32).take 8) }
        true) := by
  have hbt : ¬ (bytes.take ps).length < headerSize := by
    rw [List.length_take]
    omega
  rw [DiskPageManager.openFile, if_neg (by omega), deserialize_ok _ hbt]

theorem take_drop_take_of_le (bytes : List Nat) (ps d w : Nat) (h : d + w ≤ ps) :
    ((bytes.take ps).drop d).take w = (bytes.drop d).take w := by
  rw [List.drop_take, List.take_take]
  congr 1
  omega

/-! ## Claims -/

/-- C1 (counterexample): a 40-byte buffer whose magic is `"XXXX"` (not
`"YADB"`) and whose version is 99 — not a version the engine handles —
deserializes successfully, and opening an existing file with that page 0
succeeds as well; the code raises neither a `BadMagic` nor an
`UnsupportedVersion` error. -/
theorem C1_counterexample :
    DatabaseHeader.deserialize ((88 : Nat) :: 88 :: 88 :: 88 :: 99 :: List.replicate 35 0) =
      .ok { magic := [88, 88, 88, 88], version := 99, page_size := 0, page_count := 0,
            freelist_head_page := 0, schema_root_page := 0 } ∧
    DiskPageManager.openFile (some ((88 : Nat) :: 88 :: 88 :: 88 :: 99 :: List.replicate 35 0)) 40 =
      .ok (DiskPageManager.mk ((88 : Nat) :: 88 :: 88 :: 88 :: 99 :: List.replicate 35 0)
        ((88 : Nat) :: 88 :: 88 :: 88 :: 99 :: List.replicate 35 0) 0
        { magic := [88, 88, 88, 88], version := 99, page_size := 0, page_count := 0,
          freelist_head_page := 0, schema_root_page := 0 } true) ∧
    [88, 88, 88, 88] ≠ yadbMagic ∧ (99 : Nat) ≠ 1 :=
  ⟨rfl, rfl, by decide, by decide⟩

/-- C1 (amended): `deserialize` fails only on buffers shorter than the fixed
40-byte record; it performs no magic or version validation, so any buffer of
at least 40 bytes decodes successfully whatever its magic and version fields
hold, and opening an existing file whose page 0 carries an unrecognized magic
or version succeeds (whenever the file is at least `page_size ≥ 40` bytes
long) rather than failing. -/
theorem C1_no_magic_version_validation (bytes : List Nat) (ps : Nat)
    (h40 : headerSize ≤ ps) (hlen : ps ≤ bytes.length) :
    (∃ h, DatabaseHeader.deserialize bytes = .ok h ∧ h.magic = bytes.take 4 ∧
      h.version = fromLeBytes ((bytes.drop 4).take 4)) ∧
    (∃ m, DiskPageManager.openFile (some bytes) ps = .ok m) := by
  constructor
  · exact ⟨_, deserialize_ok bytes (by omega), rfl, rfl⟩
  · exact ⟨_, openFile_some_ok bytes ps h40 hlen⟩

theorem C1_witness :
    headerSize ≤ 40 ∧
    (40 : Nat) ≤ ((88 : Nat) :: 88 :: 88 :: 88 :: 99 :: List.replicate 35 0).length ∧
    ((∃ h, DatabaseHeader.deserialize
          ((88 : Nat) :: 88 :: 88 :: 88 :: 99 :: List.replicate 35 0) = .ok h ∧
        h.magic = ((88 : Nat) :: 88 :: 88 :: 88 :: 99 :: List.replicate 35 0).take 4 ∧
        h.version = fromLeBytes
          ((((88 : Nat) :: 88 :: 88 :: 88 :: 99 :: List.replicate 35 0).drop 4).take 4)) ∧
      (∃ m, DiskPageManager.openFile
          (some ((88 : Nat) :: 88 :: 88 :: 88 :: 99 :: List.replicate 35 0)) 40 = .ok m)) :=
  ⟨by decide, by decide,
    C1_no_magic_version_validation ((88 : Nat) :: 88 :: 88 :: 88 :: 99 :: List.replicate 35 0) 40
      (by decide) (by decide)⟩

/-- C2 (counterexample): a file whose stored header says `page_size = 64`,
opened with caller-supplied `page_size = 40`, opens successfully and the
manager silently adopts 64; no `BadPageFormat` mismatch error is raised. -/
theorem C2_counterexample :
    DiskPageManager.openFile (some (DatabaseHeader.new 64).serialize) 40 =
      .ok (DiskPageManager.mk (DatabaseHeader.new 64).serialize
        (DatabaseHeader.new 64).serialize 64 (DatabaseHeader.new 64) true) ∧
    (64 : Nat) ≠ 40 :=
  ⟨rfl, by decide⟩

/-- C2 (amended): `open` on an existing file never compares the
caller-supplied `page_size` with the stored one: whenever the file is at
least `page_size ≥ 40` bytes long it opens successfully and the manager
silently adopts the stored value, mismatch or not. -/
theorem C2_open_adopts_stored_page_size (bytes : List Nat) (ps : Nat)
    (h40 : headerSize ≤ ps) (hlen : ps ≤ bytes.length) :
    ∃ m, DiskPageManager.openFile (some bytes) ps = .ok m ∧
      m.page_size = fromLeBytes ((bytes.drop 8).take 8) := by
  have h40' : (40 : Nat) ≤ ps := h40
  refine ⟨_, openFile_some_ok bytes ps h40 hlen, ?_⟩
  show fromLeBytes (((bytes.take ps).drop 8).take 8) = _
  rw [take_drop_take_of_le bytes ps 8 8 (by omega)]

theorem C2_witness :
    headerSize ≤ 40 ∧ (40 : Nat) ≤ (DatabaseHeader.new 64).serialize.length ∧
    ∃ m, DiskPageManager.openFile (some (DatabaseHeader.new 64).serialize) 40 = .ok m ∧
      m.page_size = fromLeBytes (((DatabaseHeader.new 64).serialize.drop 8).take 8) :=
  ⟨by decide, by decide,
    C2_open_adopts_stored_page_size (DatabaseHeader.new 64).serialize 40 (by decide) (by decide)⟩

/-- C3 (confirmed): on every header whose fields are in the ranges the Rust
struct imposes, `deserialize` is the exact inverse of `serialize`. -/
theorem C3_header_roundtrip (h : DatabaseHeader) (hv : h.Valid) :
    DatabaseHeader.deserialize h.serialize = .ok h :=
  deserialize_serialize h hv

theorem C3_witness :
    (DatabaseHeader.new 4096).Valid ∧
    DatabaseHeader.deserialize (DatabaseHeader.new 4096).serialize =
      .ok (DatabaseHeader.new 4096) :=
  ⟨by decide, C3_header_roundtrip (DatabaseHeader.new 4096) (by decide)⟩

/-- C4 (counterexample): create a fresh 64-byte-page file, overwrite page 0
with 40 bytes of `1`s via `write_page` (which nothing prevents), then
`sync`: sync succeeds, but the durable page 0 holds the junk bytes, not the
serialization of the in-memory header — `sync` never writes the header back
to page 0. -/
theorem C4_counterexample :
    DiskPageManager.openFile none 64 =
      .ok (DiskPageManager.mk (DatabaseHeader.new 64).serialize [] 64
        (DatabaseHeader.new 64) false) ∧
    (DiskPageManager.mk (DatabaseHeader.new 64).serialize [] 64
        (DatabaseHeader.new 64) false).write_page 0 (List.replicate 40 1) =
      .ok (DiskPageManager.mk (List.replicate 40 1) [] 64 (DatabaseHeader.new 64) false) ∧
    (DiskPageManager.mk (List.replicate 40 1) [] 64 (DatabaseHeader.new 64) false).sync =
      .ok (DiskPageManager.mk (List.replicate 40 1) (List.replicate 40 1) 64
        (DatabaseHeader.new 64) false) ∧
    readAt (List.replicate 40 1) 0 headerSize ≠ (DatabaseHeader.new 64).serialize :=
  ⟨rfl, rfl, rfl, by decide⟩

/-- C4 (amended): `sync` flushes the current file contents to durable
storage and writes nothing — the in-memory header (with any updated
`page_count` or `freelist_head_page`) is not serialized back to page 0, so
after `sync` the durable page 0 equals whatever the file last held there,
not necessarily the serialization of the in-memory header; `close` performs
exactly a `sync` before the handle is released. -/
theorem C4_sync_flushes_without_writing_header (m m' : DiskPageManager)
    (h : m.sync = .ok m') :
    m'.file = m.file ∧ m'.durable = m.file ∧ m'.header = m.header ∧
    m'.page_size = m.page_size ∧ m.close = m.sync := by
  rw [DiskPageManager.sync] at h
  injection h with h
  subst h
  exact ⟨rfl, rfl, rfl, rfl, rfl⟩

theorem C4_witness :
    (DiskPageManager.mk [5] [] 8 (DatabaseHeader.new 8) false).sync =
      .ok (DiskPageManager.mk [5] [5] 8 (DatabaseHeader.new 8) false) ∧
    ((DiskPageManager.mk [5] [5] 8 (DatabaseHeader.new 8) false).file =
        (DiskPageManager.mk [5] [] 8 (DatabaseHeader.new 8) false).file ∧
      (DiskPageManager.mk [5] [5] 8 (DatabaseHeader.new 8) false).durable =
        (DiskPageManager.mk [5] [] 8 (DatabaseHeader.new 8) false).file ∧
      (DiskPageManager.mk [5] [5] 8 (DatabaseHeader.new 8) false).header =
        (DiskPageManager.mk [5] [] 8 (DatabaseHeader.new 8) false).header ∧
      (DiskPageManager.mk [5] [5] 8 (DatabaseHeader.new 8) false).page_size =
        (DiskPageManager.mk [5] [] 8 (DatabaseHeader.new 8) false).page_size ∧
      (DiskPageManager.mk [5] [] 8 (DatabaseHeader.new 8) false).close =
        (DiskPageManager.mk [5] [] 8 (DatabaseHeader.new 8) false).sync) :=
  ⟨rfl, C4_sync_flushes_without_writing_header
    (DiskPageManager.mk [5] [] 8 (DatabaseHeader.new 8) false)
    (DiskPageManager.mk [5] [5] 8 (DatabaseHeader.new 8) false) rfl⟩

/-- C5 (counterexample): open an existing 40-byte file with stored
page_size 64 — the `File::open` branch, a readable descriptor — then read
page 5, far past the file extent: the call succeeds and returns the caller's
buffer wholly unfilled, instead of failing with an I/O error. -/
theorem C5_counterexample :
    DiskPageManager.openFile (some (DatabaseHeader.new 64).serialize) 40 =
      .ok (DiskPageManager.mk (DatabaseHeader.new 64).serialize
        (DatabaseHeader.new 64).serialize 64 (DatabaseHeader.new 64) true) ∧
    (DiskPageManager.mk (DatabaseHeader.new 64).serialize
        (DatabaseHeader.new 64).serialize 64 (DatabaseHeader.new 64) true).read_page 5
        (List.replicate 64 7) =
      .ok (List.replicate 64 7) ∧
    (DatabaseHeader.new 64).serialize.length < 5 * 64 :=
  ⟨rfl, rfl, by decide⟩

/-- C5 (amended): `read_page` reads starting at byte offset
`id * page_size`. On a manager from the existing-file branch of `open`
(`File::open`, a readable descriptor) the byte count returned by `read_at`
is discarded, so the call succeeds even when the requested page lies beyond
the current file extent, and the caller's buffer is then silently left
partially or wholly unfilled on success (wholly, when the offset is at or
past end-of-file). On a manager from the create branch (`File::create`, a
write-only descriptor) every `read_page` fails with an I/O error (`EBADF`)
regardless of the extent. -/
theorem C5_read_page_offset_no_eof_error (m : DiskPageManager) (page_id : Nat)
    (buf : List Nat) :
    (m.readable = true →
      (∃ out, m.read_page page_id buf = .ok out ∧
          out = readAt m.file (page_id * m.page_size) buf.length ++
            buf.drop (readAt m.file (page_id * m.page_size) buf.length).length) ∧
      (m.file.length ≤ page_id * m.page_size → m.read_page page_id buf = .ok buf)) ∧
    (m.readable = false → ∃ e, m.read_page page_id buf = .error e) := by
  constructor
  · intro hr
    constructor
    · refine ⟨_, ?_, rfl⟩
      rw [DiskPageManager.read_page, if_pos hr]
    · intro h
      exact read_page_past_eof m page_id buf hr h
  · intro hr
    refine ⟨.IoError "Bad file descriptor (os error 9)", ?_⟩
    rw [DiskPageManager.read_page, if_neg (by rw [hr]; exact Bool.false_ne_true)]

theorem C5_witness :
    (DiskPageManager.mk (DatabaseHeader.new 64).serialize
        (DatabaseHeader.new 64).serialize 64 (DatabaseHeader.new 64) true).readable = true ∧
    (DiskPageManager.mk (DatabaseHeader.new 64).serialize
        (DatabaseHeader.new 64).serialize 64 (DatabaseHeader.new 64) true).file.length ≤
      5 * (DiskPageManager.mk (DatabaseHeader.new 64).serialize
        (DatabaseHeader.new 64).serialize 64 (DatabaseHeader.new 64) true).page_size ∧
    (DiskPageManager.mk (DatabaseHeader.new 64).serialize
        (DatabaseHeader.new 64).serialize 64 (DatabaseHeader.new 64) true).read_page 5
        (List.replicate 64 7) =
      .ok (List.replicate 64 7) :=
  ⟨rfl, by decide,
    ((C5_read_page_offset_no_eof_error
        (DiskPageManager.mk (DatabaseHeader.new 64).serialize
          (DatabaseHeader.new 64).serialize 64 (DatabaseHeader.new 64) true)
        5 (List.replicate 64 7)).1 rfl).2 (by decide)⟩

/-- C8 (confirmed; alloc_page and free_page modelled from the spec, their
bodies being `unimplemented!()` stubs): across every sequence of
page-manager operations after `open`, `alloc_page` never returns page
identifier 0 — unconditionally for a freshly created file, and for a
reopened file under the documented header invariant `page_count ≥ 1`, which
every header the engine itself writes satisfies. -/
theorem C8_alloc_never_zero :
    (∀ (ps : Nat) (mgr : DiskPageManager) (ops : List PMOp),
        DiskPageManager.openFile none ps = .ok mgr → 0 ∉ (runPMOps mgr ops).2) ∧
    (∀ (mgr : DiskPageManager) (ops : List PMOp),
        1 ≤ mgr.header.page_count → 0 ∉ (runPMOps mgr ops).2) := by
  constructor
  · intro ps mgr ops hopen
    injection hopen with hopen
    subst hopen
    exact runPMOps_zero_not_allocated _ ops (Nat.le_refl 1)
  · intro mgr ops h
    exact runPMOps_zero_not_allocated mgr ops h

theorem C8_witness :
    DiskPageManager.openFile none 64 =
      .ok (DiskPageManager.mk (DatabaseHeader.new 64).serialize [] 64
        (DatabaseHeader.new 64) false) ∧
    0 ∉ (runPMOps
        (DiskPageManager.mk (DatabaseHeader.new 64).serialize [] 64
          (DatabaseHeader.new 64) false)
        [PMOp.alloc, PMOp.free 1, PMOp.alloc, PMOp.alloc]).2 :=
  ⟨rfl, C8_alloc_never_zero.1 64
    (DiskPageManager.mk (DatabaseHeader.new 64).serialize [] 64
      (DatabaseHeader.new 64) false)
    [PMOp.alloc, PMOp.free 1, PMOp.alloc, PMOp.alloc] rfl⟩

/-- C9 (confirmed): a fresh header carries the engine signature "YADB" as
magic, current version 1, `page_count` 1, and the sentinel 0 for both
`freelist_head_page` and `schema_root_page`; opening a path with no existing
file creates it, writes exactly this header's serialization as page 0, and
yields a manager whose `page_size` is the caller-supplied value. -/
theorem C9_fresh_file (page_size : Nat) :
    DatabaseHeader.new page_size =
      { magic := yadbMagic, version := 1, page_size := page_size, page_count := 1,
        freelist_head_page := 0, schema_root_page := 0 } ∧
    DiskPageManager.openFile none page_size =
      .ok (DiskPageManager.mk (DatabaseHeader.new page_size).serialize [] page_size
        (DatabaseHeader.new page_size) false) :=
  ⟨rfl, rfl⟩

/-- C10 (confirmed): for every page id — including the reserved header page
0 — and every byte buffer of any length, `write_page` succeeds, placing
exactly the buffer's bytes at byte offset `id * page_size`; there is no
validation of the buffer length against `page_size` and no rejection of
id 0, so a caller can misalign pages or overwrite the header page without
any error. -/
theorem C10_write_page_unchecked (m : DiskPageManager) (page_id : Nat) (buf : List Nat) :
    m.write_page page_id buf =
      .ok { m with file := writeAt m.file (page_id * m.page_size) buf } ∧
    ((writeAt m.file (page_id * m.page_size) buf).drop (page_id * m.page_size)).take
        buf.length = buf :=
  ⟨rfl, writeAt_drop_take m.file (page_id * m.page_size) buf⟩

/-- C6 (confirmed; the B-tree engine modelled from the spec, every operation
body in `src/btree.rs` being an `unimplemented!()` stub): for every finite
sequence of insert(k, v) calls on a fresh B-tree over byte-vector keys and
values (any order), a subsequent search(k) returns the value most recently
inserted for k — inserting an existing key overwrites its value — and search
of a never-inserted key returns none. -/
theorem C6_last_write_wins (order : Nat) (ps : List (List Nat × List Nat))
    (k : List Nat) :
    (runInserts (BTreeEngine.new order) ps).search k = lastInserted k ps :=
  runInserts_from_new order ps k

/-- C7 (confirmed; the B-tree engine modelled from the spec, every operation
body in `src/btree.rs` being an `unimplemented!()` stub): in every reachable
B-tree state (any sequence of insert and delete calls on a fresh tree), after
delete(k) a search(k) returns none while the search result of every other
key — in particular every other previously inserted key with its unchanged
value — is the same as before the delete; deleting an absent key is a no-op
that alters no other key's search result. -/
theorem C7_delete_semantics (order : Nat) (ops : List (BTOp (List Nat) (List Nat)))
    (k k' : List Nat) (hne : k' ≠ k) :
    ((runBTOps (BTreeEngine.new order) ops).delete k).search k = none ∧
    ((runBTOps (BTreeEngine.new order) ops).delete k).search k' =
      (runBTOps (BTreeEngine.new order) ops).search k' := by
  have hwf := runBTOps_wf (BTreeEngine.new order) (BTreeEngine.new_wf order) ops
  obtain ⟨-, S, O⟩ := BTreeEngine.delete_spec _ hwf k
  exact ⟨S, O k' hne⟩

theorem C7_witness :
    ([1] : List Nat) ≠ [0] ∧
    (((runBTOps (BTreeEngine.new 4)
          [BTOp.insert [0] [10], BTOp.insert [1] [20]]).delete [0]).search [0] = none ∧
      ((runBTOps (BTreeEngine.new 4)
          [BTOp.insert [0] [10], BTOp.insert [1] [20]]).delete [0]).search [1] =
        (runBTOps (BTreeEngine.new 4)
          [BTOp.insert [0] [10], BTOp.insert [1] [20]]).search [1]) :=
  ⟨by decide, C7_delete_semantics 4 [BTOp.insert [0] [10], BTOp.insert [1] [20]]
    [0] [1] (by decide)⟩

end Yadb
